import Mathlib

/-!
Verification of the booking and inventory consistency engine of an
appliance-service backend.  The definitions below are a shallow embedding of
the JavaScript route handlers in `src/routes/stock.js`, `src/routes/report.js`
and `src/routes/booking.js`, acting on an explicit database state.  JavaScript
strings are modelled as lists of characters so that every operation on them
(`split`, `trim`, `parseInt`, template concatenation) is a structurally
recursive, kernel-evaluable Lean function.
-/

deriving instance DecidableEq for Except

namespace Svc

/-- JavaScript strings are modelled as lists of characters. -/
abbrev Str := List Char

/-! ## String primitives (models of the JavaScript string operations used) -/

/-- Prepend a character to the first chunk of a split result. -/
def consHead (d : Char) : List Str → List Str
  | [] => [[d]]
  | s :: ss => (d :: s) :: ss

/-- Model of `s.split(sep)` for a one-character separator `sep`. -/
def split1 (c : Char) : Str → List Str
  | [] => [[]]
  | d :: rest => if d = c then [] :: split1 c rest else consHead d (split1 c rest)

/-- Model of `s.split(sep)` for a two-character separator `sep = [c1, c2]`. -/
def split2 (c1 c2 : Char) : Str → List Str
  | [] => [[]]
  | [d] => [[d]]
  | d :: e :: rest =>
    if d = c1 ∧ e = c2 then [] :: split2 c1 c2 rest
    else consHead d (split2 c1 c2 (e :: rest))

/-- Whether the two-character sequence `c1 c2` occurs in the string. -/
def hasPair (c1 c2 : Char) : Str → Bool
  | [] => false
  | [_] => false
  | d :: e :: rest => if d = c1 ∧ e = c2 then true else hasPair c1 c2 (e :: rest)

/-- Model of `Array.prototype.join(sep)` / the way summaries are rendered:
interleave `sep` between the chunks. -/
def joinSep (sep : Str) : List Str → Str
  | [] => []
  | [x] => x
  | x :: y :: rest => x ++ sep ++ joinSep sep (y :: rest)

/-- Model of `String.prototype.trim`. -/
def trimL (s : Str) : Str :=
  ((s.dropWhile Char.isWhitespace).reverse.dropWhile Char.isWhitespace).reverse

/-- Numeric value of a list of decimal digit characters. -/
def digitsVal (ds : Str) : Nat :=
  ds.foldl (fun a c => 10 * a + (c.toNat - 48)) 0

/-- Model of JavaScript `parseInt` (radix 10): skip leading whitespace, read an
optional sign and then the longest digit prefix; `none` models `NaN`. -/
def parseIntChars (s : Str) : Option Int :=
  match s.dropWhile Char.isWhitespace with
  | [] => none
  | c :: rest =>
    if c = '-' then
      let ds := rest.takeWhile Char.isDigit
      if ds.isEmpty then none else some (-(digitsVal ds : Int))
    else if c = '+' then
      let ds := rest.takeWhile Char.isDigit
      if ds.isEmpty then none else some (digitsVal ds : Int)
    else
      let ds := (c :: rest).takeWhile Char.isDigit
      if ds.isEmpty then none else some (digitsVal ds : Int)

/-- Decimal rendering of a natural number; the first argument is structural
fuel, always called with `n < fuel`. -/
def natToCharsAux : Nat → Nat → Str
  | 0, _ => []
  | fuel + 1, n =>
    if n < 10 then [Nat.digitChar n]
    else natToCharsAux fuel (n / 10) ++ [Nat.digitChar (n % 10)]

/-- Decimal rendering of a natural number. -/
def natToChars (n : Nat) : Str := natToCharsAux (n + 1) n

/-- Model of the JavaScript template interpolation of an integer. -/
def intToChars (q : Int) : Str :=
  if q < 0 then '-' :: natToChars q.natAbs else natToChars q.toNat

/-- Model of `s.slice(0, -2)` (drop the last two characters). -/
def sliceDrop2 (s : Str) : Str := s.take (s.length - 2)

/-! ## Data model

Mirrors the Prisma schema (`prisma/migrations`): `Part`, `StockLog`,
`Technician`, `Booking`, `BookingPart`, `Report`.  Fields that no claim
touches (timestamps, customer contact columns, description) are omitted.
`unitCost` and money totals are modelled as integers; no claim depends on
fractional or floating-point behaviour. -/

structure Part where
  id : Str
  name : Str
  unitCost : Int
  quantity : Int
deriving DecidableEq

structure StockLog where
  partId : Str
  change : Int
  reason : Str
deriving DecidableEq

structure Technician where
  id : Str
  totalJobs : Int
deriving DecidableEq

inductive BookingStatus
  | PENDING
  | IN_PROGRESS
  | COMPLETED
  | CANCELED
deriving DecidableEq

structure Booking where
  id : Str
  technicianId : Option Str
  status : BookingStatus
deriving DecidableEq

structure BookingPart where
  bookingId : Str
  partId : Str
  quantity : Int
deriving DecidableEq

structure Report where
  id : Str
  technicianId : Str
  summary : Str
  totalMoney : Int
deriving DecidableEq

structure DB where
  parts : List Part
  stockLogs : List StockLog
  technicians : List Technician
  bookings : List Booking
  bookingParts : List BookingPart
  reports : List Report
deriving DecidableEq

/-- Failure kinds surfaced by the handlers (HTTP 404, the insufficient-stock
400 carrying the offending part id, the ownership 403, and the 500 raised when
a Prisma `update` targets a missing row). -/
inductive Err
  | notFound
  | insufficientStock (partId : Str)
  | forbidden
  | internal
deriving DecidableEq

/-- Model of `prisma.part.findUnique({ where: { id } })`. -/
def DB.findPart (db : DB) (i : Str) : Option Part :=
  db.parts.find? (fun p => p.id == i)

/-- Model of `prisma.part.update` with `quantity: { increment: d }`
(`decrement: q` is `increment` of `-q`). -/
def adjQ (ps : List Part) (i : Str) (d : Int) : List Part :=
  ps.map (fun p => if p.id == i then { p with quantity := p.quantity + d } else p)

/-! ## Stock Ledger (`src/routes/stock.js`) -/

/-- Route `PATCH /stock/:id/add` (lines 36-78): 404 when the part is missing,
otherwise increment the quantity and append one stock log with the positive
change.  There is no guard on this path. -/
def addStock (db : DB) (partId : Str) (quantity : Int) (reason : Str) : Except Err DB :=
  match db.findPart partId with
  | none => .error .notFound
  | some _ =>
    .ok { db with
          parts := adjQ db.parts partId quantity,
          stockLogs := db.stockLogs ++ [{ partId := partId, change := quantity, reason := reason }] }

/-- Route `PATCH /stock/:id/reduce` (lines 112-161): 404 when the part is missing,
400 when `part.quantity < quantity`, otherwise decrement and append one stock
log with the negative change. -/
def reduceStock (db : DB) (partId : Str) (quantity : Int) (reason : Str) : Except Err DB :=
  match db.findPart partId with
  | none => .error .notFound
  | some part =>
    if part.quantity < quantity then .error (.insufficientStock partId)
    else
      .ok { db with
            parts := adjQ db.parts partId (-quantity),
            stockLogs := db.stockLogs ++ [{ partId := partId, change := -quantity, reason := reason }] }

/-- The Stock Ledger `adjust(partId, signedDelta, reason)` contract of the
spec, realised by the two routes: a negative delta is `/reduce` with the
absolute value, any other delta is `/add`. -/
def adjust (db : DB) (partId : Str) (delta : Int) (reason : Str) : Except Err DB :=
  if delta < 0 then reduceStock db partId (-delta) reason
  else addStock db partId delta reason

/-! ## Report Reconciliation (`src/routes/report.js`) -/

/-- A `{ id, quantity }` element of the `partsUsed` request list. -/
structure UsedItem where
  id : Str
  quantity : Int
deriving DecidableEq

/-- The `for (const item of partsUsed)` loop shared verbatim by
`POST /report` (lines 38-55) and `PUT /report/:reportId` (lines 223-239):
for each item in order, look the part up, fail with the insufficient-stock
message (carrying `item.id`) when it is missing or short, otherwise extend the
summary string and running total and decrement the part.  On failure the
already-performed decrements persist, so the error carries the mutated state. -/
def reconcileLoop : DB → List UsedItem → Str → Int → Except (Err × DB) (DB × Str × Int)
  | db, [], summary, total => .ok (db, summary, total)
  | db, item :: rest, summary, total =>
    match db.findPart item.id with
    | none => .error (.insufficientStock item.id, db)
    | some part =>
      if part.quantity < item.quantity then .error (.insufficientStock item.id, db)
      else
        reconcileLoop { db with parts := adjQ db.parts item.id (-item.quantity) } rest
          (summary ++ part.name ++ (" x").data ++ intToChars item.quantity ++ (", ").data)
          (total + part.unitCost * item.quantity)

/-- Route `POST /report` (lines 11-80): run the loop, strip the trailing comma-space
with `slice(0, -2)`, persist the report.  No stock log is created on this
path.  `rid` stands for the generated report id. -/
def createReport (db : DB) (rid tech : Str) (partsUsed : List UsedItem) :
    Except (Err × DB) (DB × Report) :=
  match reconcileLoop db partsUsed [] 0 with
  | .error e => .error e
  | .ok (db1, s, t) =>
    let report : Report :=
      { id := rid, technicianId := tech, summary := sliceDrop2 s, totalMoney := t }
    .ok ({ db1 with reports := db1.reports ++ [report] }, report)

/-- One parsed entry of a stored summary:
`const [name, qty] = entry.split(" x"); { name: name.trim(), quantity: parseInt(qty) || 0 }`. -/
def parseSummaryEntry (entry : Str) : Str × Int :=
  let ps := split2 ' ' 'x' entry
  (trimL (ps.headD []),
   match ps[1]? with
   | none => 0
   | some q => (parseIntChars q).getD 0)

/-- Model of `existingReport.summary.split(", ").map(...)` (lines 202-207). -/
def parseSummary (s : Str) : List (Str × Int) :=
  (split2 ',' ' ' s).map parseSummaryEntry

/-- The restore loop of `PUT /report/:reportId` (lines 209-217): for each
parsed `{ name, quantity }`, look the part up by name (`findFirst`) and, when
found, increment its quantity; entries whose name resolves to no part are
skipped without error. -/
def restoreLoop : DB → List (Str × Int) → DB
  | db, [] => db
  | db, (n, q) :: rest =>
    match db.parts.find? (fun p => p.name == n) with
    | none => restoreLoop db rest
    | some p => restoreLoop { db with parts := adjQ db.parts p.id q } rest

/-- Route `PUT /report/:reportId` (lines 159-263): find the report, check ownership,
restore the quantities encoded in the stored summary, then validate-and-deduct
the new parts list exactly as in creation, and update the report row. -/
def editReport (db : DB) (rid tech : Str) (partsUsed : List UsedItem) :
    Except (Err × DB) (DB × Report) :=
  match db.reports.find? (fun r => r.id == rid) with
  | none => .error (.notFound, db)
  | some r =>
    if r.technicianId == tech then
      let db1 := restoreLoop db (parseSummary r.summary)
      match reconcileLoop db1 partsUsed [] 0 with
      | .error e => .error e
      | .ok (db2, s, t) =>
        .ok ({ db2 with
               reports := db2.reports.map (fun r2 =>
                 if r2.id == rid then { r2 with summary := sliceDrop2 s, totalMoney := t } else r2) },
             { r with summary := sliceDrop2 s, totalMoney := t })
    else .error (.forbidden, db)

/-! ## Booking Lifecycle (`src/routes/booking.js`) -/

/-- Route `POST /booking/:id/assign` (lines 82-123): 404 when the technician does
not exist; otherwise overwrite the booking technician reference, force the
status to IN_PROGRESS, and increment the technician lifetime job counter by
one.  A missing booking makes the Prisma update throw (500). -/
def assignTechnician (db : DB) (bid tid : Str) : Except Err (DB × Booking) :=
  match db.technicians.find? (fun t => t.id == tid) with
  | none => .error .notFound
  | some _ =>
    match db.bookings.find? (fun b => b.id == bid) with
    | none => .error .internal
    | some b =>
      .ok ({ db with
             bookings := db.bookings.map (fun x =>
               if x.id == bid then { x with technicianId := some tid, status := .IN_PROGRESS } else x),
             technicians := db.technicians.map (fun t =>
               if t.id == tid then { t with totalJobs := t.totalJobs + 1 } else t) },
           { b with technicianId := some tid, status := .IN_PROGRESS })

/-- Route `PATCH /booking/:id/status` (lines 132-147): unconditional status
overwrite, no transition guard, technician reference untouched. -/
def setStatus (db : DB) (bid : Str) (st : BookingStatus) : Except Err (DB × Booking) :=
  match db.bookings.find? (fun b => b.id == bid) with
  | none => .error .internal
  | some b =>
    .ok ({ db with
           bookings := db.bookings.map (fun x =>
             if x.id == bid then { x with status := st } else x) },
         { b with status := st })

/-- A `{ partId, quantity }` element of the booking parts request. -/
structure PartReq where
  partId : Str
  quantity : Int
deriving DecidableEq

/-- Route `POST /booking/:id/parts` (lines 203-226): for each requested part,
decrement its quantity (no guard of any kind) and record a BookingPart row; a
missing part makes the Prisma update throw, with the earlier decrements kept. -/
def bookingAddParts : DB → Str → List PartReq → Except (Err × DB) DB
  | db, _, [] => .ok db
  | db, bid, pr :: rest =>
    match db.findPart pr.partId with
    | none => .error (.internal, db)
    | some _ =>
      bookingAddParts
        { db with
          parts := adjQ db.parts pr.partId (-pr.quantity),
          bookingParts := db.bookingParts ++
            [{ bookingId := bid, partId := pr.partId, quantity := pr.quantity }] }
        bid rest

/-! ## Remarks Text Codec (`src/routes/booking.js`, `updateRemarksFields`,
lines 502-524) -/

/-- JavaScript `Map.prototype.set`: overwrite in place when the key exists,
append otherwise. -/
def mapSet (m : List (Str × Str)) (k v : Str) : List (Str × Str) :=
  if m.any (fun e => e.1 == k) then m.map (fun e => if e.1 == k then (k, v) else e)
  else m ++ [(k, v)]

/-- One iteration of the parsing loop of `updateRemarksFields`:
`const [key, ...rest] = line.split(":"); if (key && rest.length) ...`. -/
def parseRemarkLine (m : List (Str × Str)) (line : Str) : List (Str × Str) :=
  match split1 ':' line with
  | [] => m
  | key :: rest =>
    if key ≠ [] ∧ rest ≠ [] then mapSet m (trimL key) (trimL (joinSep (":").data rest))
    else m

/-- Function `updateRemarksFields(remarks, updates)`: split the existing remarks on
newlines, drop empty lines, build the key map, apply the updates in order,
and serialize as `"Key: value"` entries joined by `", "`. -/
def updateRemarksFields (remarks : Str) (updates : List (Str × Str)) : Str :=
  let lines := (split1 '\n' remarks).filter (fun l => l ≠ [])
  let m0 := lines.foldl parseRemarkLine []
  let m1 := updates.foldl (fun m kv => mapSet m kv.1 kv.2) m0
  joinSep (", ").data (m1.map (fun kv => kv.1 ++ (": ").data ++ kv.2))

/-! ## Lemmas about the string primitives -/

theorem split1_cons (c d : Char) (t : Str) :
    split1 c (d :: t) = if d = c then [] :: split1 c t else consHead d (split1 c t) := rfl

theorem split2_cons2 (c1 c2 d e : Char) (t : Str) :
    split2 c1 c2 (d :: e :: t) =
      if d = c1 ∧ e = c2 then [] :: split2 c1 c2 t
      else consHead d (split2 c1 c2 (e :: t)) := rfl

theorem hasPair_cons2 (c1 c2 d e : Char) (t : Str) :
    hasPair c1 c2 (d :: e :: t) =
      if d = c1 ∧ e = c2 then true else hasPair c1 c2 (e :: t) := rfl

theorem joinSep_cons2 (sep : Str) (x y : Str) (t : List Str) :
    joinSep sep (x :: y :: t) = x ++ sep ++ joinSep sep (y :: t) := rfl

theorem split1_ne_nil (c : Char) (s : Str) : split1 c s ≠ [] := by
  induction s with
  | nil => simp [split1]
  | cons d rest ih =>
    rw [split1_cons]
    split
    · simp
    · match h : split1 c rest with
      | [] => exact absurd h ih
      | x :: xs => simp [consHead]

theorem split1_eq_self (c : Char) (s : Str) (h : c ∉ s) : split1 c s = [s] := by
  induction s with
  | nil => rfl
  | cons d rest ih =>
    simp only [List.mem_cons, not_or] at h
    rw [split1_cons, if_neg (Ne.symm h.1), ih h.2, consHead]

theorem split1_append (c : Char) (s1 s2 : Str) (h : c ∉ s1) :
    split1 c (s1 ++ c :: s2) = s1 :: split1 c s2 := by
  induction s1 with
  | nil => simp [split1_cons]
  | cons d rest ih =>
    simp only [List.mem_cons, not_or] at h
    rw [List.cons_append, split1_cons, if_neg (Ne.symm h.1), ih h.2, consHead]

theorem joinSep_consHead (sep : Str) (d : Char) (l : List Str) (h : l ≠ []) :
    joinSep sep (consHead d l) = d :: joinSep sep l := by
  match l with
  | [] => exact absurd rfl h
  | [x] => rfl
  | x :: y :: rest => simp [consHead, joinSep_cons2]

theorem joinSep_split1 (c : Char) (s : Str) : joinSep [c] (split1 c s) = s := by
  induction s with
  | nil => rfl
  | cons d rest ih =>
    rw [split1_cons]
    split
    · rename_i hd
      match h : split1 c rest with
      | [] => exact absurd h (split1_ne_nil c rest)
      | x :: xs =>
        rw [joinSep_cons2]
        rw [h] at ih
        simp [ih, hd]
    · rw [joinSep_consHead _ _ _ (split1_ne_nil c rest), ih]

theorem split1_joinSep (c : Char) (parts : List Str) (hp : parts ≠ [])
    (h : ∀ x ∈ parts, c ∉ x) : split1 c (joinSep [c] parts) = parts := by
  induction parts with
  | nil => exact absurd rfl hp
  | cons x rest ih =>
    match rest with
    | [] => exact split1_eq_self c x (h x (by simp))
    | y :: t =>
      have hx : c ∉ x := h x (by simp)
      have hrest : ∀ z ∈ y :: t, c ∉ z := fun z hz => h z (by simp [hz])
      rw [joinSep_cons2, List.append_assoc, List.singleton_append, split1_append c x _ hx,
        ih (by simp) hrest]

theorem split2_ne_nil (c1 c2 : Char) (s : Str) : split2 c1 c2 s ≠ [] := by
  induction s with
  | nil => simp [split2]
  | cons d rest ih =>
    match rest with
    | [] => simp [split2]
    | e :: t =>
      rw [split2_cons2]
      split
      · simp
      · match h : split2 c1 c2 (e :: t) with
        | [] => exact absurd h ih
        | x :: xs => simp [consHead]

theorem hasPair_eq_false_of_no_c1 (c1 c2 : Char) (s : Str) (h : ∀ c ∈ s, c ≠ c1) :
    hasPair c1 c2 s = false := by
  induction s with
  | nil => rfl
  | cons d rest ih =>
    match rest with
    | [] => rfl
    | e :: t =>
      rw [hasPair_cons2]
      have hd : d ≠ c1 := h d (by simp)
      have ht : ∀ c ∈ e :: t, c ≠ c1 := fun c hc => h c (by simp [hc])
      rw [if_neg (by rintro ⟨rfl, -⟩; exact hd rfl), ih ht]

theorem split2_eq_self (c1 c2 : Char) (s : Str) (h : hasPair c1 c2 s = false) :
    split2 c1 c2 s = [s] := by
  induction s with
  | nil => rfl
  | cons d rest ih =>
    match rest with
    | [] => rfl
    | e :: t =>
      rw [hasPair_cons2] at h
      by_cases hc : d = c1 ∧ e = c2
      · rw [if_pos hc] at h; cases h
      · rw [if_neg hc] at h
        rw [split2_cons2, if_neg hc, ih h, consHead]

theorem split2_append (c1 c2 : Char) (hne : c1 ≠ c2) (s1 s2 : Str)
    (h : hasPair c1 c2 s1 = false) :
    split2 c1 c2 (s1 ++ c1 :: c2 :: s2) = s1 :: split2 c1 c2 s2 := by
  induction s1 with
  | nil => rw [List.nil_append, split2_cons2, if_pos ⟨rfl, rfl⟩]
  | cons d rest ih =>
    match rest with
    | [] =>
      rw [List.cons_append, List.nil_append, split2_cons2,
        if_neg (by rintro ⟨rfl, rfl⟩; exact hne rfl), split2_cons2, if_pos ⟨rfl, rfl⟩, consHead]
    | e :: t =>
      rw [hasPair_cons2] at h
      by_cases hc : d = c1 ∧ e = c2
      · rw [if_pos hc] at h; cases h
      · rw [if_neg hc] at h
        simp only [List.cons_append] at ih ⊢
        rw [split2_cons2, if_neg hc, ih h, consHead]

theorem trimL_space_cons (v : Str) : trimL (' ' :: v) = trimL v := by
  simp [trimL, List.dropWhile_cons]

theorem digitsVal_append (l : Str) (c : Char) :
    digitsVal (l ++ [c]) = 10 * digitsVal l + (c.toNat - 48) := by
  simp [digitsVal, List.foldl_append]

/-- The ten decimal digit characters. -/
def decChars : Str := ['0', '1', '2', '3', '4', '5', '6', '7', '8', '9']

theorem digitChar_mem_decChars {d : Nat} (h : d < 10) : Nat.digitChar d ∈ decChars := by
  interval_cases d <;> decide

theorem decChars_facts {c : Char} (h : c ∈ decChars) :
    c.isDigit = true ∧ c.isWhitespace = false ∧ c ≠ ',' ∧ c ≠ ' ' ∧ c ≠ 'x' ∧
      c ≠ '-' ∧ c ≠ '+' ∧ c ≠ ':' ∧ c ≠ '\n' := by
  simp only [decChars, List.mem_cons, List.not_mem_nil, or_false] at h
  rcases h with rfl | rfl | rfl | rfl | rfl | rfl | rfl | rfl | rfl | rfl <;> decide

theorem digitChar_val {d : Nat} (h : d < 10) : (Nat.digitChar d).toNat - 48 = d := by
  interval_cases d <;> decide

theorem natToCharsAux_spec :
    ∀ fuel n, n < fuel →
      natToCharsAux fuel n ≠ [] ∧ (∀ c ∈ natToCharsAux fuel n, c ∈ decChars) ∧
        digitsVal (natToCharsAux fuel n) = n := by
  intro fuel
  induction fuel with
  | zero => omega
  | succ f ih =>
    intro n hn
    rw [natToCharsAux]
    by_cases h10 : n < 10
    · rw [if_pos h10]
      refine ⟨by simp, ?_, ?_⟩
      · intro c hc
        simp only [List.mem_singleton] at hc
        exact hc ▸ digitChar_mem_decChars h10
      · simp [digitsVal, digitChar_val h10]
    · rw [if_neg h10]
      have hlt : n / 10 < f := by omega
      obtain ⟨h1, h2, h3⟩ := ih (n / 10) hlt
      refine ⟨by simp, ?_, ?_⟩
      · intro c hc
        rw [List.mem_append, List.mem_singleton] at hc
        rcases hc with hc | hc
        · exact h2 c hc
        · exact hc ▸ digitChar_mem_decChars (Nat.mod_lt n (by omega))
      · rw [digitsVal_append, h3, digitChar_val (Nat.mod_lt n (by omega))]
        omega

theorem natToChars_ne_nil (n : Nat) : natToChars n ≠ [] :=
  (natToCharsAux_spec (n + 1) n (by omega)).1

theorem natToChars_mem (n : Nat) : ∀ c ∈ natToChars n, c ∈ decChars :=
  (natToCharsAux_spec (n + 1) n (by omega)).2.1

theorem digitsVal_natToChars (n : Nat) : digitsVal (natToChars n) = n :=
  (natToCharsAux_spec (n + 1) n (by omega)).2.2

theorem dropWhile_eq_self_of_neg {p : Char → Bool} {s : Str}
    (h : ∀ c ∈ s, p c = false) : s.dropWhile p = s := by
  cases s with
  | nil => rfl
  | cons c t => rw [List.dropWhile_cons, h c (by simp), if_neg (by simp)]

theorem takeWhile_eq_self_of_pos {p : Char → Bool} {s : Str}
    (h : ∀ c ∈ s, p c = true) : s.takeWhile p = s := by
  induction s with
  | nil => rfl
  | cons c t ih =>
    rw [List.takeWhile_cons, h c (by simp), if_pos rfl,
      ih (fun x hx => h x (by simp [hx]))]

theorem parseIntChars_natToChars (n : Nat) : parseIntChars (natToChars n) = some (n : Int) := by
  have hmem := natToChars_mem n
  have hdw : (natToChars n).dropWhile Char.isWhitespace = natToChars n :=
    dropWhile_eq_self_of_neg (fun c hc => (decChars_facts (hmem c hc)).2.1)
  rw [parseIntChars]
  match h : natToChars n with
  | [] => exact absurd h (natToChars_ne_nil n)
  | c :: rest =>
    rw [h] at hdw hmem
    rw [hdw]
    dsimp only
    have hc := decChars_facts (hmem c (by simp))
    rw [if_neg hc.2.2.2.2.2.1, if_neg hc.2.2.2.2.2.2.1]
    have htw : (c :: rest).takeWhile Char.isDigit = c :: rest :=
      takeWhile_eq_self_of_pos (fun x hx => (decChars_facts (hmem x hx)).1)
    rw [htw]
    simp only [List.isEmpty_cons, Bool.false_eq_true, if_false]
    rw [← h, digitsVal_natToChars]

theorem parseIntChars_intToChars (q : Int) : parseIntChars (intToChars q) = some q := by
  rw [intToChars]
  by_cases hq : q < 0
  · rw [if_pos hq, parseIntChars]
    have hmem := natToChars_mem q.natAbs
    have hdw : ('-' :: natToChars q.natAbs).dropWhile Char.isWhitespace =
        '-' :: natToChars q.natAbs := by
      rw [List.dropWhile_cons, if_neg (by decide)]
    rw [hdw]
    dsimp only
    rw [if_pos rfl]
    have htw : (natToChars q.natAbs).takeWhile Char.isDigit = natToChars q.natAbs :=
      takeWhile_eq_self_of_pos (fun x hx => (decChars_facts (hmem x hx)).1)
    rw [htw]
    have hne : (natToChars q.natAbs).isEmpty = false := by
      match h : natToChars q.natAbs with
      | [] => exact absurd h (natToChars_ne_nil _)
      | x :: xs => rfl
    rw [hne]
    simp only [Bool.false_eq_true, if_false, digitsVal_natToChars]
    exact congrArg some (by omega)
  · rw [if_neg hq, parseIntChars_natToChars]
    exact congrArg some (by omega)

theorem split2_joinSep (c1 c2 : Char) (hne : c1 ≠ c2) (parts : List Str) (hp : parts ≠ [])
    (h : ∀ x ∈ parts, hasPair c1 c2 x = false) :
    split2 c1 c2 (joinSep [c1, c2] parts) = parts := by
  induction parts with
  | nil => exact absurd rfl hp
  | cons x rest ih =>
    match rest with
    | [] => exact split2_eq_self c1 c2 x (h x (by simp))
    | y :: t =>
      have hx := h x (by simp)
      have hrest : ∀ z ∈ y :: t, hasPair c1 c2 z = false := fun z hz => h z (by simp [hz])
      rw [joinSep_cons2, List.append_assoc, List.cons_append, List.singleton_append,
        split2_append c1 c2 hne x _ hx, ih (by simp) hrest]

/-! ## Quantity-delta algebra

`applyDeltas` is the derived, order-insensitive description of a sequence of
Prisma increments and decrements; `sumFor` collects the net delta for one
part id. -/

def applyDeltas (ps : List Part) (ds : List (Str × Int)) : List Part :=
  ds.foldl (fun a d => adjQ a d.1 d.2) ps

def sumFor (ds : List (Str × Int)) (i : Str) : Int :=
  ((ds.filter (fun d => d.1 == i)).map Prod.snd).sum

theorem sumFor_nil (i : Str) : sumFor [] i = 0 := rfl

theorem sumFor_cons (j : Str) (d : Int) (ds : List (Str × Int)) (i : Str) :
    sumFor ((j, d) :: ds) i = (if j = i then d else 0) + sumFor ds i := by
  by_cases h : j = i <;> simp [sumFor, List.filter_cons, h]

theorem sumFor_append (a b : List (Str × Int)) (i : Str) :
    sumFor (a ++ b) i = sumFor a i + sumFor b i := by
  simp [sumFor, List.filter_append]

theorem applyDeltas_nil (ps : List Part) : applyDeltas ps [] = ps := rfl

theorem applyDeltas_cons (ps : List Part) (d : Str × Int) (ds : List (Str × Int)) :
    applyDeltas ps (d :: ds) = applyDeltas (adjQ ps d.1 d.2) ds := rfl

theorem applyDeltas_append (ps : List Part) (a b : List (Str × Int)) :
    applyDeltas ps (a ++ b) = applyDeltas (applyDeltas ps a) b := by
  simp [applyDeltas, List.foldl_append]

theorem adjQ_quantity (p : Part) (i : Str) (d : Int) :
    (if p.id == i then { p with quantity := p.quantity + d } else p) =
      { p with quantity := p.quantity + (if i = p.id then d else 0) } := by
  by_cases h : p.id = i
  · subst h; simp
  · rw [if_neg (by simpa using h), if_neg (fun hh => h hh.symm)]
    simp

theorem applyDeltas_eq_map (ds : List (Str × Int)) :
    ∀ ps : List Part,
      applyDeltas ps ds = ps.map (fun p => { p with quantity := p.quantity + sumFor ds p.id }) := by
  induction ds with
  | nil =>
    intro ps
    rw [applyDeltas_nil]
    conv_lhs => rw [← List.map_id ps]
    refine List.map_congr_left (fun p _ => ?_)
    simp [sumFor_nil]
  | cons d ds ih =>
    intro ps
    rw [applyDeltas_cons, ih, adjQ, List.map_map]
    refine List.map_congr_left (fun p _ => ?_)
    simp only [Function.comp]
    rw [adjQ_quantity]
    dsimp only
    rw [sumFor_cons]
    by_cases h : d.1 = p.id <;> simp [h, add_assoc]

theorem adjF_id (p : Part) (i : Str) (d : Int) :
    (if p.id == i then { p with quantity := p.quantity + d } else p).id = p.id := by
  split <;> rfl

theorem adjF_name (p : Part) (i : Str) (d : Int) :
    (if p.id == i then { p with quantity := p.quantity + d } else p).name = p.name := by
  split <;> rfl

theorem adjF_unitCost (p : Part) (i : Str) (d : Int) :
    (if p.id == i then { p with quantity := p.quantity + d } else p).unitCost = p.unitCost := by
  split <;> rfl

/-- Quantity adjustments do not change ids or names, so `find?` by id commutes
with `adjQ` up to the quantity field. -/
theorem find?_adjQ_id (ps : List Part) (i d j) :
    (adjQ ps i d).find? (fun p => p.id == j) =
      (ps.find? (fun p => p.id == j)).map
        (fun p => if p.id == i then { p with quantity := p.quantity + d } else p) := by
  rw [adjQ, List.find?_map]
  have hpred : ((fun p : Part => p.id == j) ∘
      (fun p => if p.id == i then { p with quantity := p.quantity + d } else p)) =
      (fun p : Part => p.id == j) := by
    funext p
    simp only [Function.comp]
    rw [adjF_id]
  rw [hpred]

theorem find?_adjQ_name (ps : List Part) (i d n) :
    (adjQ ps i d).find? (fun p => p.name == n) =
      (ps.find? (fun p => p.name == n)).map
        (fun p => if p.id == i then { p with quantity := p.quantity + d } else p) := by
  rw [adjQ, List.find?_map]
  have hpred : ((fun p : Part => p.name == n) ∘
      (fun p => if p.id == i then { p with quantity := p.quantity + d } else p)) =
      (fun p : Part => p.name == n) := by
    funext p
    simp only [Function.comp]
    rw [adjF_name]
  rw [hpred]

/-- Display name of the part with a given id (defaults to the empty string). -/
def nameIn (ps : List Part) (i : Str) : Str :=
  ((ps.find? (fun p => p.id == i)).map Part.name).getD []

/-- Unit cost of the part with a given id (defaults to zero). -/
def unitCostIn (ps : List Part) (i : Str) : Int :=
  ((ps.find? (fun p => p.id == i)).map Part.unitCost).getD 0

/-- Id of the first part carrying a given display name. -/
def firstIdByName (ps : List Part) (n : Str) : Option Str :=
  (ps.find? (fun p => p.name == n)).map Part.id

theorem nameIn_adjQ (ps : List Part) (i d j) : nameIn (adjQ ps i d) j = nameIn ps j := by
  rw [nameIn, nameIn, find?_adjQ_id]
  cases h : ps.find? (fun p => p.id == j) with
  | none => rfl
  | some p =>
    simp only [Option.map_some', Option.getD_some]
    rw [adjF_name]

theorem unitCostIn_adjQ (ps : List Part) (i d j) :
    unitCostIn (adjQ ps i d) j = unitCostIn ps j := by
  rw [unitCostIn, unitCostIn, find?_adjQ_id]
  cases h : ps.find? (fun p => p.id == j) with
  | none => rfl
  | some p =>
    simp only [Option.map_some', Option.getD_some]
    rw [adjF_unitCost]

theorem firstIdByName_adjQ (ps : List Part) (i d n) :
    firstIdByName (adjQ ps i d) n = firstIdByName ps n := by
  rw [firstIdByName, firstIdByName, find?_adjQ_name]
  cases h : ps.find? (fun p => p.name == n) with
  | none => rfl
  | some p =>
    simp only [Option.map_some']
    rw [adjF_id]

theorem nameIn_applyDeltas (ds : List (Str × Int)) :
    ∀ (ps : List Part) (j : Str), nameIn (applyDeltas ps ds) j = nameIn ps j := by
  induction ds with
  | nil => intro ps j; rfl
  | cons d ds ih => intro ps j; rw [applyDeltas_cons, ih, nameIn_adjQ]

theorem unitCostIn_applyDeltas (ds : List (Str × Int)) :
    ∀ (ps : List Part) (j : Str), unitCostIn (applyDeltas ps ds) j = unitCostIn ps j := by
  induction ds with
  | nil => intro ps j; rfl
  | cons d ds ih => intro ps j; rw [applyDeltas_cons, ih, unitCostIn_adjQ]

theorem firstIdByName_applyDeltas (ds : List (Str × Int)) :
    ∀ (ps : List Part) (n : Str), firstIdByName (applyDeltas ps ds) n = firstIdByName ps n := by
  induction ds with
  | nil => intro ps n; rfl
  | cons d ds ih => intro ps n; rw [applyDeltas_cons, ih, firstIdByName_adjQ]

/-! ## Characterization of the reconciliation loops -/

/-- The `(partId, -quantity)` decrement deltas of a parts-used list. -/
def negDeltas (items : List UsedItem) : List (Str × Int) :=
  items.map (fun it => (it.id, -it.quantity))

/-- The `(partId, +quantity)` restore deltas of a parts-used list. -/
def posDeltas (items : List UsedItem) : List (Str × Int) :=
  items.map (fun it => (it.id, it.quantity))

/-- The `(partName, quantity)` pairs a parts-used list contributes to a
summary, with names resolved in the given parts table. -/
def entriesOf (ps : List Part) (items : List UsedItem) : List (Str × Int) :=
  items.map (fun it => (nameIn ps it.id, it.quantity))

/-- One summary fragment: `partName xquantity`. -/
def renderEntry (e : Str × Int) : Str :=
  e.1 ++ (" x").data ++ intToChars e.2

/-- The raw summary string accumulated by the reconcile loop (every fragment
followed by comma-space). -/
def fragsStr : List (Str × Int) → Str
  | [] => []
  | e :: rest => renderEntry e ++ (", ").data ++ fragsStr rest

/-- Total cost of a parts-used list: sum of `unitCost * quantity`. -/
def totalOf (ps : List Part) (items : List UsedItem) : Int :=
  (items.map (fun it => unitCostIn ps it.id * it.quantity)).sum

theorem entriesOf_adjQ (ps : List Part) (i d) (items : List UsedItem) :
    entriesOf (adjQ ps i d) items = entriesOf ps items := by
  simp only [entriesOf]
  exact List.map_congr_left (fun it _ => by rw [nameIn_adjQ])

theorem totalOf_adjQ (ps : List Part) (i d) (items : List UsedItem) :
    totalOf (adjQ ps i d) items = totalOf ps items := by
  simp only [totalOf]
  congr 1
  exact List.map_congr_left (fun it _ => by rw [unitCostIn_adjQ])

theorem entriesOf_applyDeltas (ps : List Part) (ds) (items : List UsedItem) :
    entriesOf (applyDeltas ps ds) items = entriesOf ps items := by
  simp only [entriesOf]
  exact List.map_congr_left (fun it _ => by rw [nameIn_applyDeltas])

theorem negDeltas_cons (it : UsedItem) (rest : List UsedItem) :
    negDeltas (it :: rest) = (it.id, -it.quantity) :: negDeltas rest := rfl

theorem posDeltas_cons (it : UsedItem) (rest : List UsedItem) :
    posDeltas (it :: rest) = (it.id, it.quantity) :: posDeltas rest := rfl

theorem entriesOf_cons (ps : List Part) (it : UsedItem) (rest : List UsedItem) :
    entriesOf ps (it :: rest) = (nameIn ps it.id, it.quantity) :: entriesOf ps rest := rfl

theorem fragsStr_cons (e : Str × Int) (rest : List (Str × Int)) :
    fragsStr (e :: rest) = renderEntry e ++ (", ").data ++ fragsStr rest := rfl

theorem totalOf_cons (ps : List Part) (it : UsedItem) (rest : List UsedItem) :
    totalOf ps (it :: rest) = unitCostIn ps it.id * it.quantity + totalOf ps rest := by
  simp [totalOf]

theorem reconcileLoop_ok (items : List UsedItem) :
    ∀ (db : DB) (s : Str) (t : Int) (db2 : DB) (s2 : Str) (t2 : Int),
      reconcileLoop db items s t = .ok (db2, s2, t2) →
      db2 = { db with parts := applyDeltas db.parts (negDeltas items) } ∧
        s2 = s ++ fragsStr (entriesOf db.parts items) ∧
        t2 = t + totalOf db.parts items := by
  induction items with
  | nil =>
    intro db s t db2 s2 t2 h
    rw [reconcileLoop] at h
    simp only [Except.ok.injEq, Prod.mk.injEq] at h
    obtain ⟨h1, h2, h3⟩ := h
    refine ⟨?_, ?_, ?_⟩
    · rw [← h1, negDeltas, List.map_nil, applyDeltas_nil]
    · rw [← h2, entriesOf, List.map_nil, fragsStr, List.append_nil]
    · rw [← h3, totalOf, List.map_nil, List.sum_nil, add_zero]
  | cons it rest ih =>
    intro db s t db2 s2 t2 h
    rw [reconcileLoop] at h
    match hfind : db.findPart it.id with
    | none => rw [hfind] at h; cases h
    | some part =>
      rw [hfind] at h
      dsimp only at h
      by_cases hq : part.quantity < it.quantity
      · rw [if_pos hq] at h; cases h
      · rw [if_neg hq] at h
        obtain ⟨h1, h2, h3⟩ := ih _ _ _ _ _ _ h
        dsimp only at h1 h2 h3
        have hfind2 : db.parts.find? (fun p => p.id == it.id) = some part := hfind
        have hname : nameIn db.parts it.id = part.name := by
          rw [nameIn, hfind2]
          rfl
        have hcost : unitCostIn db.parts it.id = part.unitCost := by
          rw [unitCostIn, hfind2]
          rfl
        refine ⟨?_, ?_, ?_⟩
        · rw [h1, negDeltas_cons, applyDeltas_cons]
        · rw [h2, entriesOf_cons, fragsStr_cons, renderEntry, entriesOf_adjQ, hname]
          simp [List.append_assoc]
        · rw [h3, totalOf_cons, totalOf_adjQ, hcost]
          ring

/-- Restore deltas: the `(partId, quantity)` increments the restore loop will
apply, skipping entries whose name resolves to no part. -/
def restoreDeltas (ps : List Part) : List (Str × Int) → List (Str × Int)
  | [] => []
  | (n, q) :: rest =>
    match ps.find? (fun p => p.name == n) with
    | none => restoreDeltas ps rest
    | some p => (p.id, q) :: restoreDeltas ps rest

theorem restoreDeltas_adjQ (ps : List Part) (i d) (entries : List (Str × Int)) :
    restoreDeltas (adjQ ps i d) entries = restoreDeltas ps entries := by
  induction entries with
  | nil => rfl
  | cons e rest ih =>
    obtain ⟨n, q⟩ := e
    rw [restoreDeltas, restoreDeltas, find?_adjQ_name]
    cases h : ps.find? (fun p => p.name == n) with
    | none => exact ih
    | some p =>
      simp only [Option.map_some']
      rw [adjF_id, ih]

theorem restoreDeltas_applyDeltas (ds : List (Str × Int)) :
    ∀ (ps : List Part) (entries : List (Str × Int)),
      restoreDeltas (applyDeltas ps ds) entries = restoreDeltas ps entries := by
  induction ds with
  | nil => intro ps entries; rfl
  | cons d ds ih => intro ps entries; rw [applyDeltas_cons, ih, restoreDeltas_adjQ]

theorem restoreLoop_char (entries : List (Str × Int)) :
    ∀ db : DB,
      restoreLoop db entries =
        { db with parts := applyDeltas db.parts (restoreDeltas db.parts entries) } := by
  induction entries with
  | nil => intro db; rfl
  | cons e rest ih =>
    intro db
    obtain ⟨n, q⟩ := e
    rw [restoreLoop, restoreDeltas]
    cases h : db.parts.find? (fun p => p.name == n) with
    | none => dsimp only; rw [ih]
    | some p =>
      dsimp only
      rw [ih { db with parts := adjQ db.parts p.id q }]
      dsimp only
      rw [restoreDeltas_adjQ, applyDeltas_cons]

/-! ## Summary render and parse round trip -/

/-- A part name that survives the free-text summary round trip: no comma, no
occurrence of the `" x"` separator, and stable under trimming.  The spec
itself flags these as the conditions the encode-as-string design relies on. -/
def GoodName (n : Str) : Prop :=
  (',' ∉ n) ∧ hasPair ' ' 'x' n = false ∧ trimL n = n

instance (n : Str) : Decidable (GoodName n) := by
  unfold GoodName
  infer_instance

theorem intToChars_mem (q : Int) : ∀ c ∈ intToChars q, c = '-' ∨ c ∈ decChars := by
  intro c hc
  rw [intToChars] at hc
  split at hc
  · rcases List.mem_cons.mp hc with rfl | hc
    · exact Or.inl rfl
    · exact Or.inr (natToChars_mem _ c hc)
  · exact Or.inr (natToChars_mem _ c hc)

theorem renderEntry_no_comma (e : Str × Int) (h : ',' ∉ e.1) : ',' ∉ renderEntry e := by
  rw [renderEntry]
  intro hmem
  rcases List.mem_append.mp hmem with hmem1 | hmem1
  · rcases List.mem_append.mp hmem1 with hmem2 | hmem2
    · exact h hmem2
    · rcases List.mem_cons.mp hmem2 with h1 | h1
      · cases h1
      · exact absurd (List.mem_singleton.mp h1) (by decide)
  · rcases intToChars_mem _ _ hmem1 with h1 | h1
    · cases h1
    · exact (decChars_facts h1).2.2.1 rfl

theorem hasPair_renderEntry (e : Str × Int) (h : ',' ∉ e.1) :
    hasPair ',' ' ' (renderEntry e) = false :=
  hasPair_eq_false_of_no_c1 ',' ' ' _
    (fun c hc => by rintro rfl; exact renderEntry_no_comma e h hc)

theorem hasPair_intToChars (q : Int) : hasPair ' ' 'x' (intToChars q) = false :=
  hasPair_eq_false_of_no_c1 ' ' 'x' _ (fun c hc => by
    rintro rfl
    rcases intToChars_mem q ' ' hc with h1 | h1
    · cases h1
    · exact (decChars_facts h1).2.2.2.1 rfl)

theorem parseSummaryEntry_render (n : Str) (q : Int) (h : GoodName n) :
    parseSummaryEntry (renderEntry (n, q)) = (n, q) := by
  obtain ⟨-, hx, htrim⟩ := h
  have hsplit : split2 ' ' 'x' (renderEntry (n, q)) = [n, intToChars q] := by
    rw [renderEntry]
    dsimp only
    rw [List.append_assoc]
    have hxq : (" x").data ++ intToChars q = ' ' :: 'x' :: intToChars q := rfl
    rw [hxq, split2_append ' ' 'x' (by decide) n _ hx,
      split2_eq_self ' ' 'x' _ (hasPair_intToChars q)]
  rw [parseSummaryEntry, hsplit]
  show (trimL n, (parseIntChars (intToChars q)).getD 0) = (n, q)
  rw [htrim, parseIntChars_intToChars, Option.getD_some]

theorem fragsStr_eq (entries : List (Str × Int)) (h : entries ≠ []) :
    fragsStr entries = joinSep (", ").data (entries.map renderEntry) ++ (", ").data := by
  induction entries with
  | nil => exact absurd rfl h
  | cons e rest ih =>
    match rest with
    | [] => simp [fragsStr, joinSep]
    | f :: t =>
      rw [fragsStr_cons, ih (by simp)]
      simp only [List.map_cons]
      rw [joinSep_cons2]
      simp [List.append_assoc]

theorem sliceDrop2_append (l : Str) : sliceDrop2 (l ++ (", ").data) = l := by
  rw [sliceDrop2]
  have hlen : (l ++ (", ").data).length - 2 = l.length := by simp
  rw [hlen]
  exact List.take_left' rfl

theorem parseSummary_render (entries : List (Str × Int)) (hne : entries ≠ [])
    (h : ∀ e ∈ entries, GoodName e.1) :
    parseSummary (sliceDrop2 (fragsStr entries)) = entries := by
  rw [fragsStr_eq entries hne, sliceDrop2_append, parseSummary]
  have hsp : split2 ',' ' ' (joinSep (", ").data (entries.map renderEntry)) =
      entries.map renderEntry := by
    have hcomma : (", ").data = [',', ' '] := rfl
    rw [hcomma]
    refine split2_joinSep ',' ' ' (by decide) _ (by simpa using hne) ?_
    intro x hx
    obtain ⟨e, he, rfl⟩ := List.mem_map.mp hx
    exact hasPair_renderEntry e (h e he).1
  rw [hsp, List.map_map]
  conv_rhs => rw [← List.map_id entries]
  refine List.map_congr_left (fun e he => ?_)
  obtain ⟨n, q⟩ := e
  exact parseSummaryEntry_render n q (h _ he)

/-! ## Characterizations of report creation and edit -/

theorem totalOf_applyDeltas (ps : List Part) (ds) (items : List UsedItem) :
    totalOf (applyDeltas ps ds) items = totalOf ps items := by
  simp only [totalOf]
  congr 1
  exact List.map_congr_left (fun it _ => by rw [unitCostIn_applyDeltas])

theorem createReport_ok (db : DB) (rid tech : Str) (items : List UsedItem) (db2 : DB)
    (r : Report) (h : createReport db rid tech items = .ok (db2, r)) :
    db2.parts = applyDeltas db.parts (negDeltas items) ∧
      db2.stockLogs = db.stockLogs ∧
      db2.technicians = db.technicians ∧
      db2.bookings = db.bookings ∧
      db2.bookingParts = db.bookingParts ∧
      db2.reports = db.reports ++ [r] ∧
      r = { id := rid, technicianId := tech,
            summary := sliceDrop2 (fragsStr (entriesOf db.parts items)),
            totalMoney := totalOf db.parts items } := by
  rw [createReport] at h
  match hrec : reconcileLoop db items [] 0 with
  | .error e => rw [hrec] at h; cases h
  | .ok (db1, s, t) =>
    rw [hrec] at h
    dsimp only at h
    simp only [Except.ok.injEq, Prod.mk.injEq] at h
    obtain ⟨hdb, hr⟩ := h
    obtain ⟨h1, h2, h3⟩ := reconcileLoop_ok items db [] 0 db1 s t hrec
    rw [List.nil_append] at h2
    rw [zero_add] at h3
    subst h1 h2 h3
    rw [← hdb, ← hr]
    dsimp only
    exact ⟨rfl, rfl, rfl, rfl, rfl, rfl, rfl⟩

theorem editReport_ok (db : DB) (rid tech : Str) (L : List UsedItem) (r : Report)
    (db2 : DB) (r2 : Report)
    (hr : db.reports.find? (fun x => x.id == rid) = some r)
    (htech : r.technicianId = tech)
    (h : editReport db rid tech L = .ok (db2, r2)) :
    db2.parts =
        applyDeltas db.parts
          (restoreDeltas db.parts (parseSummary r.summary) ++ negDeltas L) ∧
      db2.stockLogs = db.stockLogs ∧
      db2.technicians = db.technicians ∧
      db2.bookings = db.bookings ∧
      db2.bookingParts = db.bookingParts ∧
      db2.reports = db.reports.map (fun x =>
        if x.id == rid then
          { x with summary := sliceDrop2 (fragsStr (entriesOf db.parts L)),
                   totalMoney := totalOf db.parts L }
        else x) ∧
      r2 = { r with summary := sliceDrop2 (fragsStr (entriesOf db.parts L)),
                    totalMoney := totalOf db.parts L } := by
  rw [editReport, hr] at h
  dsimp only at h
  rw [if_pos (by simp [htech])] at h
  have hchar := restoreLoop_char (parseSummary r.summary) db
  match hrec : reconcileLoop (restoreLoop db (parseSummary r.summary)) L [] 0 with
  | .error e => rw [hrec] at h; cases h
  | .ok (db1, s, t) =>
    rw [hrec] at h
    dsimp only at h
    simp only [Except.ok.injEq, Prod.mk.injEq] at h
    obtain ⟨hdb, hr2⟩ := h
    obtain ⟨h1, h2, h3⟩ := reconcileLoop_ok L _ [] 0 db1 s t hrec
    rw [hchar] at h1 h2 h3
    dsimp only at h1 h2 h3
    rw [entriesOf_applyDeltas, List.nil_append] at h2
    rw [totalOf_applyDeltas, zero_add] at h3
    rw [← applyDeltas_append] at h1
    subst h2 h3
    rw [← hdb, ← hr2, h1]
    dsimp only
    exact ⟨rfl, rfl, rfl, rfl, rfl, rfl, rfl⟩

/-! ## The round-trip cancellation argument -/

theorem sumFor_pos_neg (L : List UsedItem) (i : Str) :
    sumFor (posDeltas L) i + sumFor (negDeltas L) i = 0 := by
  induction L with
  | nil => rfl
  | cons it rest ih =>
    rw [posDeltas_cons, negDeltas_cons, sumFor_cons, sumFor_cons]
    by_cases h : it.id = i
    · simp only [if_pos h]
      omega
    · simp only [if_neg h]
      omega

/-- A parts-used item that resolves to a part whose name survives the summary
round trip and resolves back (by name) to the same part. -/
def ResolvesNicely (db : DB) (it : UsedItem) : Prop :=
  ∃ p ∈ db.parts, db.findPart it.id = some p ∧ GoodName p.name ∧
    firstIdByName db.parts p.name = some p.id

instance (db : DB) (it : UsedItem) : Decidable (ResolvesNicely db it) := by
  unfold ResolvesNicely
  infer_instance

theorem restoreDeltas_entriesOf (db : DB) (L : List UsedItem)
    (hres : ∀ it ∈ L, ResolvesNicely db it) :
    restoreDeltas db.parts (entriesOf db.parts L) = posDeltas L := by
  induction L with
  | nil => rfl
  | cons it rest ih =>
    obtain ⟨p, -, hfind, -, hfirst⟩ := hres it (by simp)
    rw [DB.findPart] at hfind
    have hname : nameIn db.parts it.id = p.name := by
      rw [nameIn, hfind]
      rfl
    have hid : p.id = it.id := by
      have := List.find?_some hfind
      simpa using this
    rw [entriesOf_cons, restoreDeltas, hname]
    rw [firstIdByName] at hfirst
    match hf : db.parts.find? (fun x => x.name == p.name) with
    | none =>
      rw [hf] at hfirst
      cases hfirst
    | some p2 =>
      rw [hf, Option.map_some', Option.some.injEq] at hfirst
      rw [posDeltas_cons, ih (fun x hx => hres x (by simp [hx])), hf]
      dsimp only
      rw [hfirst, hid]

theorem parseSummary_empty : parseSummary [] = [([], 0)] := rfl

theorem sumFor_restore_parse (db : DB) (L : List UsedItem)
    (hres : ∀ it ∈ L, ResolvesNicely db it) (i : Str) :
    sumFor
        (restoreDeltas db.parts
          (parseSummary (sliceDrop2 (fragsStr (entriesOf db.parts L))))) i =
      sumFor (posDeltas L) i := by
  match L with
  | [] =>
    show sumFor (restoreDeltas db.parts (parseSummary [])) i = _
    rw [parseSummary_empty, restoreDeltas]
    cases hf : db.parts.find? (fun p => p.name == ([] : Str)) with
    | none => rfl
    | some p =>
      rw [restoreDeltas]
      rw [sumFor_cons]
      simp [sumFor_nil, posDeltas, sumFor]
  | it :: rest =>
    have hgood : ∀ e ∈ entriesOf db.parts (it :: rest), GoodName e.1 := by
      intro e he
      obtain ⟨x, hx, rfl⟩ := List.mem_map.mp he
      obtain ⟨p, -, hfind, hg, -⟩ := hres x hx
      rw [DB.findPart] at hfind
      have : nameIn db.parts x.id = p.name := by
        rw [nameIn, hfind]
        rfl
      rw [this]
      exact hg
    rw [parseSummary_render _ (by simp [entriesOf]) hgood, restoreDeltas_entriesOf db _ hres]

theorem updF_id (x : Report) (rid : Str) (s : Str) (t : Int) :
    (if x.id == rid then { x with summary := s, totalMoney := t } else x).id = x.id := by
  split <;> rfl

theorem part_eta_zero (p : Part) : { p with quantity := p.quantity + 0 } = p := by
  cases p
  simp

/-- C5 — Report edit round-trip: a report whose stored summary was rendered
from the parts list `L0`, edited to `L1` and then edited back to `L0`, leaves
every part quantity exactly as it was before the first edit, provided every
referenced part resolves and its name survives the text round trip (the
conditions the spec itself states the design relies on). -/
theorem report_edit_roundtrip
    (db db1 db2 : DB) (rid tech : Str) (L0 L1 : List UsedItem) (r0 r1 r2 : Report)
    (hr : db.reports.find? (fun x => x.id == rid) = some r0)
    (htech : r0.technicianId = tech)
    (hsum : r0.summary = sliceDrop2 (fragsStr (entriesOf db.parts L0)))
    (hres : ∀ it ∈ L0 ++ L1, ResolvesNicely db it)
    (h1 : editReport db rid tech L1 = .ok (db1, r1))
    (h2 : editReport db1 rid tech L0 = .ok (db2, r2)) :
    db2.parts = db.parts := by
  have hres0 : ∀ it ∈ L0, ResolvesNicely db it := fun it h => hres it (by simp [h])
  have hres1 : ∀ it ∈ L1, ResolvesNicely db it := fun it h => hres it (by simp [h])
  obtain ⟨e1parts, -, -, -, -, e1reps, -⟩ :=
    editReport_ok db rid tech L1 r0 db1 r1 hr htech h1
  have hrid : r0.id = rid := by simpa using List.find?_some hr
  have hfind1 : db1.reports.find? (fun x => x.id == rid) =
      some { r0 with summary := sliceDrop2 (fragsStr (entriesOf db.parts L1)),
                     totalMoney := totalOf db.parts L1 } := by
    rw [e1reps, List.find?_map]
    have hpred : ((fun x : Report => x.id == rid) ∘ (fun x =>
        if x.id == rid then
          { x with summary := sliceDrop2 (fragsStr (entriesOf db.parts L1)),
                   totalMoney := totalOf db.parts L1 }
        else x)) = (fun x : Report => x.id == rid) := by
      funext x
      simp only [Function.comp]
      rw [updF_id]
    rw [hpred, hr, Option.map_some', if_pos (by simp [hrid])]
  obtain ⟨e2parts, -, -, -, -, -, -⟩ :=
    editReport_ok db1 rid tech L0 _ db2 r2 hfind1 htech h2
  rw [e2parts, e1parts, restoreDeltas_applyDeltas, ← applyDeltas_append, hsum]
  have hs1 : ({ r0 with summary := sliceDrop2 (fragsStr (entriesOf db.parts L1)),
                        totalMoney := totalOf db.parts L1 } : Report).summary =
      sliceDrop2 (fragsStr (entriesOf db.parts L1)) := rfl
  rw [hs1, applyDeltas_eq_map]
  conv_rhs => rw [← List.map_id db.parts]
  refine List.map_congr_left (fun p _ => ?_)
  have hz : sumFor
      ((restoreDeltas db.parts
          (parseSummary (sliceDrop2 (fragsStr (entriesOf db.parts L0)))) ++
        negDeltas L1) ++
        (restoreDeltas db.parts
          (parseSummary (sliceDrop2 (fragsStr (entriesOf db.parts L1)))) ++
        negDeltas L0)) p.id = 0 := by
    rw [sumFor_append, sumFor_append, sumFor_append,
      sumFor_restore_parse db L0 hres0, sumFor_restore_parse db L1 hres1]
    have a := sumFor_pos_neg L0 p.id
    have b := sumFor_pos_neg L1 p.id
    omega
  rw [hz, part_eta_zero]
  rfl

/-! ## Claim C6: successful reconciliation -/

/-- C6 — On a successful `POST /report`, every listed part is decremented by
the requested quantity (summed over repeated mentions of the same id), the
stored summary is the comma-separated concatenation of `partName xquantity`
entries in list order, and the stored total is the sum of
`unitCost * quantity` over the list. -/
theorem createReport_spec (db : DB) (rid tech : Str) (items : List UsedItem)
    (db2 : DB) (r : Report)
    (h : createReport db rid tech items = .ok (db2, r)) :
    db2.parts = db.parts.map (fun p =>
        { p with quantity := p.quantity + sumFor (negDeltas items) p.id }) ∧
      r.summary = joinSep (", ").data ((entriesOf db.parts items).map renderEntry) ∧
      r.totalMoney = totalOf db.parts items := by
  obtain ⟨hp, -, -, -, -, -, hr⟩ := createReport_ok db rid tech items db2 r h
  refine ⟨by rw [hp, applyDeltas_eq_map], ?_, by rw [hr]⟩
  rw [hr]
  show sliceDrop2 (fragsStr (entriesOf db.parts items)) = _
  match hE : entriesOf db.parts items with
  | [] => rfl
  | e :: t => rw [fragsStr_eq _ (by simp), sliceDrop2_append]

/-- The spec worked example for reconciliation: one part `P1` with display
name `P1name`, quantity 10 and unit cost 5. -/
def dbC6 : DB :=
  { parts := [{ id := ("P1").data, name := ("P1name").data, unitCost := 5, quantity := 10 }],
    stockLogs := [], technicians := [], bookings := [], bookingParts := [], reports := [] }

def repC6 : Report :=
  { id := ("R1").data, technicianId := ("T1").data,
    summary := ("P1name x3").data, totalMoney := 15 }

def dbC6x : DB :=
  { parts := [{ id := ("P1").data, name := ("P1name").data, unitCost := 5, quantity := 7 }],
    stockLogs := [], technicians := [], bookings := [], bookingParts := [],
    reports := [repC6] }

theorem createReport_spec_witness :
    createReport dbC6 ("R1").data ("T1").data [{ id := ("P1").data, quantity := 3 }] =
        .ok (dbC6x, repC6) ∧
      (dbC6x.parts = dbC6.parts.map (fun p =>
          { p with quantity := p.quantity +
              sumFor (negDeltas [{ id := ("P1").data, quantity := 3 }]) p.id }) ∧
        repC6.summary = joinSep (", ").data
          ((entriesOf dbC6.parts [{ id := ("P1").data, quantity := 3 }]).map renderEntry) ∧
        repC6.totalMoney = totalOf dbC6.parts [{ id := ("P1").data, quantity := 3 }]) :=
  ⟨by decide,
    createReport_spec dbC6 (("R1").data) (("T1").data)
      [{ id := ("P1").data, quantity := 3 }] dbC6x repC6 (by decide)⟩

/-! ## Claim C1: failure behaviour of reconciliation -/

/-- C1 amended — When the FIRST item of the list is missing or short (in
particular for every single-part list), the reconcile fails with the
insufficient-stock error naming that part and the state is returned entirely
unchanged: no quantity is mutated and no stock log is created. -/
theorem createReport_first_item_fails_clean (db : DB) (rid tech : Str) (it : UsedItem)
    (rest : List UsedItem)
    (h : ∀ p ∈ db.parts, db.findPart it.id = some p → p.quantity < it.quantity) :
    createReport db rid tech (it :: rest) = .error (.insufficientStock it.id, db) := by
  have hrec : reconcileLoop db (it :: rest) [] 0 = .error (.insufficientStock it.id, db) := by
    rw [reconcileLoop]
    match hf : db.findPart it.id with
    | none => rfl
    | some part =>
      dsimp only
      have hmem : part ∈ db.parts := by
        rw [DB.findPart] at hf
        exact List.mem_of_find?_eq_some hf
      rw [if_pos (h part hmem hf)]
  rw [createReport, hrec]

/-- Parts table for the C1 counterexample: `P1` has stock, `P2` does not. -/
def dbC1 : DB :=
  { parts := [{ id := ("P1").data, name := ("P1name").data, unitCost := 5, quantity := 10 },
              { id := ("P2").data, name := ("P2name").data, unitCost := 2, quantity := 0 }],
    stockLogs := [], technicians := [], bookings := [], bookingParts := [], reports := [] }

def dbC1x : DB :=
  { parts := [{ id := ("P1").data, name := ("P1name").data, unitCost := 5, quantity := 7 },
              { id := ("P2").data, name := ("P2name").data, unitCost := 2, quantity := 0 }],
    stockLogs := [], technicians := [], bookings := [], bookingParts := [], reports := [] }

/-- C1 counterexample — `reconcile([{P1, 3}, {P2, 5}])` with `P2` short fails
with InsufficientStock for `P2`, but `P1` has already been decremented from 10
to 7: the check-then-decrement loop is per item, not all-or-nothing. -/
theorem createReport_partial_mutation :
    createReport dbC1 ("R1").data ("T1").data
        [{ id := ("P1").data, quantity := 3 }, { id := ("P2").data, quantity := 5 }] =
      .error (.insufficientStock ("P2").data, dbC1x) ∧ dbC1x.parts ≠ dbC1.parts := by decide

/-- The spec example state for the amended C1 theorem: `P1` holds quantity 2. -/
def dbC1w : DB :=
  { parts := [{ id := ("P1").data, name := ("P1name").data, unitCost := 5, quantity := 2 }],
    stockLogs := [], technicians := [], bookings := [], bookingParts := [], reports := [] }

theorem createReport_first_item_fails_clean_witness :
    (∀ p ∈ dbC1w.parts, dbC1w.findPart ("P1").data = some p → p.quantity < (3 : Int)) ∧
      createReport dbC1w ("R1").data ("T1").data [{ id := ("P1").data, quantity := 3 }] =
        .error (.insufficientStock ("P1").data, dbC1w) :=
  ⟨by decide,
    createReport_first_item_fails_clean dbC1w (("R1").data) (("T1").data)
      { id := ("P1").data, quantity := 3 } [] (by decide)⟩

/-! ## Claim C2: the stock-log replay invariant -/

/-- Net signed change recorded in the stock log for one part id. -/
def logSumFor (db : DB) (i : Str) : Int :=
  ((db.stockLogs.filter (fun e => e.partId == i)).map StockLog.change).sum

/-- The replay invariant of the spec: for every part, its initial quantity
plus the sum of its logged deltas equals its current quantity. -/
def ReplayInv (init : Str → Int) (db : DB) : Prop :=
  ∀ p ∈ db.parts, p.quantity = init p.id + logSumFor db p.id

instance (init : Str → Int) (db : DB) : Decidable (ReplayInv init db) := by
  unfold ReplayInv
  infer_instance

theorem logSum_snoc (ls : List StockLog) (e : StockLog) (i : Str) :
    (((ls ++ [e]).filter (fun x => x.partId == i)).map StockLog.change).sum =
      ((ls.filter (fun x => x.partId == i)).map StockLog.change).sum +
        (if e.partId = i then e.change else 0) := by
  rw [List.filter_append]
  by_cases h : e.partId = i <;> simp [List.filter_cons, h]

/-- Shared characterization of a successful `adjust`: state update and exactly
one appended log entry with the signed delta. -/
theorem adjust_ok_char (db : DB) (pid : Str) (delta : Int) (reason : Str) (db2 : DB)
    (h : adjust db pid delta reason = .ok db2) :
    db2 = { db with
            parts := adjQ db.parts pid delta,
            stockLogs := db.stockLogs ++
              [{ partId := pid, change := delta, reason := reason }] } := by
  rw [adjust] at h
  by_cases hd : delta < 0
  · rw [if_pos hd, reduceStock] at h
    match hf : db.findPart pid with
    | none => rw [hf] at h; cases h
    | some part =>
      rw [hf] at h
      dsimp only at h
      by_cases hq : part.quantity < -delta
      · rw [if_pos hq] at h; cases h
      · rw [if_neg hq] at h
        simp only [Except.ok.injEq] at h
        rw [← h]
        simp [neg_neg]
  · rw [if_neg hd, addStock] at h
    match hf : db.findPart pid with
    | none => rw [hf] at h; cases h
    | some part =>
      rw [hf] at h
      simp only [Except.ok.injEq] at h
      exact h.symm

/-- C2 amended — The replay invariant is preserved by every Stock Ledger
adjust (the `/add` and `/reduce` routes), which append exactly one log entry
whose signed delta matches the quantity change.  It is NOT maintained by
report creation/edit or booking-parts consumption, which change quantities
without logging (see the counterexample). -/
theorem adjust_preserves_replay (init : Str → Int) (db : DB) (pid : Str) (delta : Int)
    (reason : Str) (db2 : DB) (hinv : ReplayInv init db)
    (h : adjust db pid delta reason = .ok db2) : ReplayInv init db2 := by
  rw [adjust_ok_char db pid delta reason db2 h]
  intro p hp
  dsimp only at hp
  rw [adjQ] at hp
  obtain ⟨p0, hp0, rfl⟩ := List.mem_map.mp hp
  have hq := hinv p0 hp0
  rw [adjF_id]
  show _ = init p0.id + logSumFor
    { db with
      parts := adjQ db.parts pid delta,
      stockLogs := db.stockLogs ++ [{ partId := pid, change := delta, reason := reason }] } p0.id
  rw [logSumFor]
  dsimp only
  rw [logSum_snoc]
  rw [logSumFor] at hq
  by_cases hid : p0.id = pid
  · have hid2 : pid = p0.id := hid.symm
    rw [if_pos hid2]
    have hb : (p0.id == pid) = true := by simpa using hid
    simp only [hb, if_true, ite_true]
    omega
  · have hid2 : ¬ pid = p0.id := fun hh => hid hh.symm
    rw [if_neg hid2]
    have hb : (p0.id == pid) = false := by simpa using hid
    simp only [hb, Bool.false_eq_true, if_false]
    omega

/-- State for the C2 counterexample and witness: one part with quantity 10 and
an empty log, so the replay invariant holds with initial quantity 10. -/
def dbC2 : DB :=
  { parts := [{ id := ("P1").data, name := ("P1name").data, unitCost := 5, quantity := 10 }],
    stockLogs := [], technicians := [], bookings := [], bookingParts := [], reports := [] }

def repC2 : Report :=
  { id := ("R1").data, technicianId := ("T1").data,
    summary := ("P1name x3").data, totalMoney := 15 }

def dbC2x : DB :=
  { parts := [{ id := ("P1").data, name := ("P1name").data, unitCost := 5, quantity := 7 }],
    stockLogs := [], technicians := [], bookings := [], bookingParts := [],
    reports := [repC2] }

/-- C2 counterexample — report reconciliation decrements `P1` from 10 to 7 but
creates no StockLogEntry, so the replay invariant that held before the call is
broken after it. -/
theorem report_reconcile_breaks_replay :
    createReport dbC2 ("R1").data ("T1").data [{ id := ("P1").data, quantity := 3 }] =
        .ok (dbC2x, repC2) ∧
      ReplayInv (fun _ => 10) dbC2 ∧ ¬ ReplayInv (fun _ => 10) dbC2x := by decide

def dbC2adj : DB :=
  { parts := [{ id := ("P1").data, name := ("P1name").data, unitCost := 5, quantity := 7 }],
    stockLogs := [{ partId := ("P1").data, change := -3, reason := ("Damaged").data }],
    technicians := [], bookings := [], bookingParts := [], reports := [] }

theorem adjust_preserves_replay_witness :
    (ReplayInv (fun _ => 10) dbC2 ∧
        adjust dbC2 ("P1").data (-3) ("Damaged").data = .ok dbC2adj) ∧
      ReplayInv (fun _ => 10) dbC2adj :=
  ⟨⟨by decide, by decide⟩,
    adjust_preserves_replay (fun _ => 10) dbC2 (("P1").data) (-3) (("Damaged").data)
      dbC2adj (by decide) (by decide)⟩

/-! ## Claim C3: non-negativity -/

def dbC3 : DB :=
  { parts := [{ id := ("P1").data, name := ("P1name").data, unitCost := 2, quantity := 1 }],
    stockLogs := [], technicians := [], bookings := [], bookingParts := [], reports := [] }

def dbC3x : DB :=
  { parts := [{ id := ("P1").data, name := ("P1name").data, unitCost := 2, quantity := -4 }],
    stockLogs := [], technicians := [], bookings := [],
    bookingParts := [{ bookingId := ("B1").data, partId := ("P1").data, quantity := 5 }],
    reports := [] }

/-- C3 (code bug evidence) — `POST /booking/:id/parts` decrements with no
guard whatsoever: consuming 5 units of a part holding 1 succeeds and leaves
the quantity at -4, violating the non-negativity invariant. -/
theorem bookingAddParts_negative :
    bookingAddParts dbC3 ("B1").data [{ partId := ("P1").data, quantity := 5 }] =
        .ok dbC3x ∧
      (∀ p ∈ dbC3.parts, 0 ≤ p.quantity) ∧ (∃ p ∈ dbC3x.parts, p.quantity < 0) := by decide

/-! ## Claim C4: booking lifecycle invariant -/

/-- The booking invariant of the spec: a PENDING booking carries no technician
reference (equivalently, a set reference implies IN_PROGRESS or later). -/
def BookingInv (db : DB) : Prop :=
  ∀ b ∈ db.bookings, b.status = BookingStatus.PENDING → b.technicianId = none

instance (db : DB) : Decidable (BookingInv db) := by
  unfold BookingInv
  infer_instance

/-- C4 amended — `assignTechnician` preserves the booking invariant: the
target booking gets a technician together with status IN_PROGRESS, and no
other booking changes.  `setStatus` does not preserve it (see the
counterexample): it overwrites the status unconditionally and leaves the
technician reference in place. -/
theorem assignTechnician_preserves_inv (db : DB) (bid tid : Str) (db2 : DB) (b2 : Booking)
    (hinv : BookingInv db) (h : assignTechnician db bid tid = .ok (db2, b2)) :
    BookingInv db2 := by
  rw [assignTechnician] at h
  match hf : db.technicians.find? (fun t => t.id == tid) with
  | none => rw [hf] at h; cases h
  | some t =>
    rw [hf] at h
    dsimp only at h
    match hb : db.bookings.find? (fun b => b.id == bid) with
    | none => rw [hb] at h; cases h
    | some b =>
      rw [hb] at h
      dsimp only at h
      simp only [Except.ok.injEq, Prod.mk.injEq] at h
      obtain ⟨hdb, -⟩ := h
      rw [← hdb]
      intro x hx hst
      dsimp only at hx
      obtain ⟨b0, hb0, rfl⟩ := List.mem_map.mp hx
      by_cases hid : b0.id == bid
      · rw [if_pos hid] at hst ⊢
        simp at hst
      · rw [if_neg hid] at hst ⊢
        exact hinv b0 hb0 hst

def dbC4 : DB :=
  { parts := [], stockLogs := [],
    technicians := [{ id := ("T1").data, totalJobs := 0 }],
    bookings := [{ id := ("B1").data, technicianId := none, status := .PENDING }],
    bookingParts := [], reports := [] }

def dbC4a : DB :=
  { parts := [], stockLogs := [],
    technicians := [{ id := ("T1").data, totalJobs := 1 }],
    bookings := [{ id := ("B1").data, technicianId := some ("T1").data,
                   status := .IN_PROGRESS }],
    bookingParts := [], reports := [] }

def bC4a : Booking :=
  { id := ("B1").data, technicianId := some ("T1").data, status := .IN_PROGRESS }

def dbC4b : DB :=
  { parts := [], stockLogs := [],
    technicians := [{ id := ("T1").data, totalJobs := 1 }],
    bookings := [{ id := ("B1").data, technicianId := some ("T1").data,
                   status := .PENDING }],
    bookingParts := [], reports := [] }

def bC4b : Booking :=
  { id := ("B1").data, technicianId := some ("T1").data, status := .PENDING }

/-- C4 counterexample — after assigning a technician, `setStatus(PENDING)`
succeeds and leaves a PENDING booking that still carries the technician
reference: the invariant is not preserved by every operation. -/
theorem setStatus_breaks_booking_inv :
    assignTechnician dbC4 ("B1").data ("T1").data = .ok (dbC4a, bC4a) ∧
      setStatus dbC4a ("B1").data .PENDING = .ok (dbC4b, bC4b) ∧
      BookingInv dbC4 ∧ ¬ BookingInv dbC4b := by decide

theorem assignTechnician_preserves_inv_witness :
    (BookingInv dbC4 ∧
        assignTechnician dbC4 ("B1").data ("T1").data = .ok (dbC4a, bC4a)) ∧
      BookingInv dbC4a :=
  ⟨⟨by decide, by decide⟩,
    assignTechnician_preserves_inv dbC4 (("B1").data) (("T1").data) dbC4a bC4a
      (by decide) (by decide)⟩

/-! ## Claim C7: the adjust contract -/

/-- C7 — The Stock Ledger adjust contract: NotFound exactly when the part id
does not resolve; for a resolved part, a negative delta fails with
InsufficientStock exactly when the current quantity plus the delta would be
negative; otherwise the quantity is updated by the delta and exactly one
StockLogEntry with that signed delta and reason is appended (the updated
quantity being the stored one). -/
theorem adjust_spec (db : DB) (pid : Str) (delta : Int) (reason : Str) :
    (db.findPart pid = none → adjust db pid delta reason = .error .notFound) ∧
      (∀ p ∈ db.parts, db.findPart pid = some p →
        (delta < 0 ∧ p.quantity + delta < 0 →
          adjust db pid delta reason = .error (.insufficientStock pid)) ∧
        (0 ≤ delta ∨ 0 ≤ p.quantity + delta →
          adjust db pid delta reason =
            .ok { db with
                  parts := adjQ db.parts pid delta,
                  stockLogs := db.stockLogs ++
                    [{ partId := pid, change := delta, reason := reason }] })) := by
  constructor
  · intro hf
    rw [adjust]
    by_cases hd : delta < 0
    · rw [if_pos hd, reduceStock, hf]
    · rw [if_neg hd, addStock, hf]
  · intro p hp hf
    constructor
    · rintro ⟨hd, hq⟩
      rw [adjust, if_pos hd, reduceStock, hf]
      dsimp only
      rw [if_pos (by omega)]
    · intro hok
      rw [adjust]
      by_cases hd : delta < 0
      · rw [if_pos hd, reduceStock, hf]
        dsimp only
        rw [if_neg (by rcases hok with h | h <;> omega)]
        simp [neg_neg]
      · rw [if_neg hd, addStock, hf]

def pC7 : Part :=
  { id := ("P1").data, name := ("P1name").data, unitCost := 5, quantity := 10 }

def dbC7 : DB :=
  { parts := [pC7],
    stockLogs := [], technicians := [], bookings := [], bookingParts := [], reports := [] }

theorem adjust_spec_witness :
    (dbC7.findPart ("P1").data = some pC7 ∧ pC7 ∈ dbC7.parts ∧
      ((0 : Int) ≤ -3 ∨ (0 : Int) ≤ pC7.quantity + -3)) ∧
      adjust dbC7 ("P1").data (-3) ("Damaged").data =
        .ok { dbC7 with
              parts := adjQ dbC7.parts (("P1").data) (-3),
              stockLogs := dbC7.stockLogs ++
                [{ partId := ("P1").data, change := -3, reason := ("Damaged").data }] } :=
  ⟨⟨by decide, by decide, by decide⟩,
    ((adjust_spec dbC7 (("P1").data) (-3) (("Damaged").data)).2 pC7
      (by decide) (by decide)).2 (by decide)⟩

/-! ## Claim C10: the restore loop skips unknown names -/

/-- C10 — During a report edit, parsed summary entries whose name matches no
part are skipped silently: the restore pass (a total function — it can raise
no error) produces exactly the state obtained by restoring only the entries
whose name resolves, so the remaining entries are still restored. -/
theorem restoreLoop_skips_unknown (db : DB) (entries : List (Str × Int)) :
    restoreLoop db entries =
      restoreLoop db (entries.filter
        (fun e => (db.parts.find? (fun p => p.name == e.1)).isSome)) := by
  rw [restoreLoop_char, restoreLoop_char]
  have hsame : restoreDeltas db.parts
      (entries.filter (fun e => (db.parts.find? (fun p => p.name == e.1)).isSome)) =
      restoreDeltas db.parts entries := by
    induction entries with
    | nil => rfl
    | cons e rest ih =>
      obtain ⟨n, q⟩ := e
      rw [List.filter_cons]
      cases hf : db.parts.find? (fun p => p.name == n) with
      | none =>
        rw [if_neg (by simp [hf])]
        rw [restoreDeltas, hf]
        exact ih
      | some p =>
        rw [if_pos (by simp [hf])]
        rw [restoreDeltas, restoreDeltas, hf]
        dsimp only
        rw [ih]
  rw [hsame]

/-! ## Claim C8: technician assignment -/

theorem updT_id (x : Technician) (tid : Str) :
    (if x.id == tid then { x with totalJobs := x.totalJobs + 1 } else x).id = x.id := by
  split <;> rfl

theorem updB_id (x : Booking) (bid tid : Str) :
    (if x.id == bid then { x with technicianId := some tid, status := BookingStatus.IN_PROGRESS } else x).id = x.id := by
  split <;> rfl

theorem find?_techUpd (ts : List Technician) (tid : Str) :
    (ts.map (fun x => if x.id == tid then { x with totalJobs := x.totalJobs + 1 } else x)).find? (fun x => x.id == tid) =
      (ts.find? (fun x => x.id == tid)).map (fun x => if x.id == tid then { x with totalJobs := x.totalJobs + 1 } else x) := by
  rw [List.find?_map]
  have hpred : ((fun x : Technician => x.id == tid) ∘ (fun x => if x.id == tid then { x with totalJobs := x.totalJobs + 1 } else x)) = (fun x : Technician => x.id == tid) := by
    funext x
    simp only [Function.comp]
    rw [updT_id]
  rw [hpred]

theorem find?_bookUpd (bs : List Booking) (bid tid : Str) :
    (bs.map (fun x => if x.id == bid then { x with technicianId := some tid, status := BookingStatus.IN_PROGRESS } else x)).find? (fun x => x.id == bid) =
      (bs.find? (fun x => x.id == bid)).map (fun x => if x.id == bid then { x with technicianId := some tid, status := BookingStatus.IN_PROGRESS } else x) := by
  rw [List.find?_map]
  have hpred : ((fun x : Booking => x.id == bid) ∘ (fun x => if x.id == bid then { x with technicianId := some tid, status := BookingStatus.IN_PROGRESS } else x)) = (fun x : Booking => x.id == bid) := by
    funext x
    simp only [Function.comp]
    rw [updB_id]
  rw [hpred]

/-- C8 — assignTechnician: fails with NotFound when the technician id does not
resolve; otherwise (for an existing booking) it overwrites the booking
technician reference, forces the status to IN_PROGRESS, and increments the
technician lifetime job counter by exactly one; repeating the call increments
it again (non-idempotent by design). -/
theorem assignTechnician_spec (db : DB) (bid tid : Str) :
    (db.technicians.find? (fun x => x.id == tid) = none →
      assignTechnician db bid tid = .error .notFound) ∧
    (∀ t ∈ db.technicians, db.technicians.find? (fun x => x.id == tid) = some t →
      ∀ b ∈ db.bookings, db.bookings.find? (fun x => x.id == bid) = some b →
        ∃ db2,
          assignTechnician db bid tid =
              .ok (db2, { b with technicianId := some tid, status := .IN_PROGRESS }) ∧
            db2.bookings.find? (fun x => x.id == bid) =
              some { b with technicianId := some tid, status := .IN_PROGRESS } ∧
            (db2.technicians.find? (fun x => x.id == tid)).map Technician.totalJobs =
              some (t.totalJobs + 1) ∧
            ∃ db3 b3,
              assignTechnician db2 bid tid = .ok (db3, b3) ∧
                b3 = { b with technicianId := some tid, status := .IN_PROGRESS } ∧
                (db3.technicians.find? (fun x => x.id == tid)).map Technician.totalJobs =
                  some (t.totalJobs + 2)) := by
  constructor
  · intro hf
    rw [assignTechnician, hf]
  · intro t ht hft b hb hfb
    have htid : t.id = tid := by simpa using List.find?_some hft
    have hbid : b.id = bid := by simpa using List.find?_some hfb
    have hft2 : (db.technicians.map (fun x => if x.id == tid then { x with totalJobs := x.totalJobs + 1 } else x)).find? (fun x => x.id == tid) = some { t with totalJobs := t.totalJobs + 1 } := by
      rw [find?_techUpd, hft, Option.map_some', if_pos (by simpa using htid)]
    have hfb2 : (db.bookings.map (fun x => if x.id == bid then { x with technicianId := some tid, status := BookingStatus.IN_PROGRESS } else x)).find? (fun x => x.id == bid) = some { b with technicianId := some tid, status := BookingStatus.IN_PROGRESS } := by
      rw [find?_bookUpd, hfb, Option.map_some', if_pos (by simpa using hbid)]
    refine ⟨{ db with
              bookings := db.bookings.map (fun x => if x.id == bid then { x with technicianId := some tid, status := BookingStatus.IN_PROGRESS } else x),
              technicians := db.technicians.map (fun x => if x.id == tid then { x with totalJobs := x.totalJobs + 1 } else x) },
            ?_, ?_, ?_, ?_⟩
    · rw [assignTechnician, hft]
      dsimp only
      rw [hfb]
    · exact hfb2
    · rw [hft2, Option.map_some']
    · refine ⟨{ db with
                bookings := (db.bookings.map (fun x => if x.id == bid then { x with technicianId := some tid, status := BookingStatus.IN_PROGRESS } else x)).map (fun x => if x.id == bid then { x with technicianId := some tid, status := BookingStatus.IN_PROGRESS } else x),
                technicians := (db.technicians.map (fun x => if x.id == tid then { x with totalJobs := x.totalJobs + 1 } else x)).map (fun x => if x.id == tid then { x with totalJobs := x.totalJobs + 1 } else x) },
              { b with technicianId := some tid, status := BookingStatus.IN_PROGRESS },
              ?_, rfl, ?_⟩
      · rw [assignTechnician]
        dsimp only
        rw [hft2]
        dsimp only
        rw [hfb2]
      · dsimp only
        rw [find?_techUpd, hft2, Option.map_some', if_pos (by simpa using htid),
          Option.map_some']
        exact congrArg some (by dsimp only; omega)

def tC8 : Technician := { id := ("T1").data, totalJobs := 0 }

def bC8 : Booking := { id := ("B1").data, technicianId := none, status := .PENDING }

def dbC8 : DB :=
  { parts := [], stockLogs := [], technicians := [tC8], bookings := [bC8],
    bookingParts := [], reports := [] }

theorem assignTechnician_spec_witness :
    (tC8 ∈ dbC8.technicians ∧
        dbC8.technicians.find? (fun x => x.id == ("T1").data) = some tC8 ∧
        bC8 ∈ dbC8.bookings ∧
        dbC8.bookings.find? (fun x => x.id == ("B1").data) = some bC8) ∧
      (∃ db2,
        assignTechnician dbC8 ("B1").data ("T1").data =
            .ok (db2, { bC8 with technicianId := some ("T1").data, status := .IN_PROGRESS }) ∧
          db2.bookings.find? (fun x => x.id == ("B1").data) =
            some { bC8 with technicianId := some ("T1").data, status := .IN_PROGRESS } ∧
          (db2.technicians.find? (fun x => x.id == ("T1").data)).map Technician.totalJobs =
            some (tC8.totalJobs + 1) ∧
          ∃ db3 b3,
            assignTechnician db2 ("B1").data ("T1").data = .ok (db3, b3) ∧
              b3 = { bC8 with technicianId := some ("T1").data, status := .IN_PROGRESS } ∧
              (db3.technicians.find? (fun x => x.id == ("T1").data)).map Technician.totalJobs =
                some (tC8.totalJobs + 2)) :=
  ⟨⟨by decide, by decide, by decide, by decide⟩,
    (assignTechnician_spec dbC8 (("B1").data) (("T1").data)).2 tC8 (by decide) (by decide)
      bC8 (by decide) (by decide)⟩

/-! ## Claim C9: the remarks codec -/

/-- A remarks field key the encoder round trip relies on: nonempty, stable
under trimming, containing neither a colon nor a newline. -/
def GoodKey (k : Str) : Prop :=
  k ≠ [] ∧ trimL k = k ∧ ∀ c ∈ k, c ≠ ':' ∧ c ≠ '\n'

instance (k : Str) : Decidable (GoodKey k) := by
  unfold GoodKey
  infer_instance

/-- A remarks field value the encoder round trip relies on: stable under
trimming and newline-free (it may contain colons). -/
def GoodVal (v : Str) : Prop :=
  trimL v = v ∧ ∀ c ∈ v, c ≠ '\n'

instance (v : Str) : Decidable (GoodVal v) := by
  unfold GoodVal
  infer_instance

/-- One serialized remarks field: `Key: value`. -/
def renderField (kv : Str × Str) : Str := kv.1 ++ (": ").data ++ kv.2

theorem parseRemarkLine_render (m : List (Str × Str)) (k v : Str)
    (hk : GoodKey k) (hv : GoodVal v) :
    parseRemarkLine m (renderField (k, v)) = mapSet m k v := by
  obtain ⟨hk0, hk1, hk2⟩ := hk
  obtain ⟨hv0, -⟩ := hv
  have hsplit : split1 ':' (renderField (k, v)) = k :: split1 ':' (' ' :: v) := by
    rw [renderField]
    dsimp only
    rw [List.append_assoc]
    exact split1_append ':' k (' ' :: v) (fun hmem => (hk2 ':' hmem).1 rfl)
  rw [parseRemarkLine, hsplit]
  dsimp only
  rw [if_pos ⟨hk0, split1_ne_nil ':' (' ' :: v)⟩, hk1]
  have hjoin : joinSep (":").data (split1 ':' (' ' :: v)) = ' ' :: v :=
    joinSep_split1 ':' (' ' :: v)
  rw [hjoin, trimL_space_cons, hv0]

theorem split_newline_render (fields : List (Str × Str))
    (h : ∀ f ∈ fields, GoodKey f.1 ∧ GoodVal f.2) :
    (split1 '\n' (joinSep ['\n'] (fields.map renderField))).filter (fun l => l ≠ []) =
      fields.map renderField := by
  match fields with
  | [] => rfl
  | f :: t =>
    have hnl : ∀ x ∈ (f :: t).map renderField, '\n' ∉ x := by
      intro x hx
      obtain ⟨e, he, rfl⟩ := List.mem_map.mp hx
      obtain ⟨⟨-, -, hk2⟩, ⟨-, hv2⟩⟩ := h e he
      rw [renderField]
      intro hmem
      rcases List.mem_append.mp hmem with h1 | h1
      · rcases List.mem_append.mp h1 with h2 | h2
        · exact (hk2 _ h2).2 rfl
        · exact absurd h2 (by decide)
      · exact hv2 _ h1 rfl
    rw [split1_joinSep '\n' _ (by simp) hnl]
    refine List.filter_eq_self.mpr ?_
    intro x hx
    obtain ⟨e, he, rfl⟩ := List.mem_map.mp hx
    simp [renderField]

theorem foldl_parse_render_acc (fields : List (Str × Str)) :
    ∀ m : List (Str × Str),
      (∀ f ∈ fields, GoodKey f.1 ∧ GoodVal f.2) →
      (∀ f ∈ fields, ∀ e ∈ m, e.1 ≠ f.1) →
      (fields.map Prod.fst).Nodup →
      (fields.map renderField).foldl parseRemarkLine m = m ++ fields := by
  induction fields with
  | nil =>
    intro m _ _ _
    simp
  | cons f t ih =>
    intro m hgood hfresh hnd
    rw [List.map_cons, List.foldl_cons]
    have hren : parseRemarkLine m (renderField f) = mapSet m f.1 f.2 := by
      have := parseRemarkLine_render m f.1 f.2 (hgood f (by simp)).1 (hgood f (by simp)).2
      simpa using this
    rw [hren]
    have hset : mapSet m f.1 f.2 = m ++ [(f.1, f.2)] := by
      rw [mapSet, if_neg]
      simp only [List.any_eq_true, not_exists, not_and]
      intro e he
      simpa using hfresh f (by simp) e he
    rw [hset]
    rw [List.map_cons, List.nodup_cons] at hnd
    have hih := ih (m ++ [(f.1, f.2)]) (fun x hx => hgood x (by simp [hx]))
      (by
        intro x hx e he
        rcases List.mem_append.mp he with he1 | he1
        · exact hfresh x (by simp [hx]) e he1
        · rcases List.mem_singleton.mp he1 with rfl
          intro habs
          exact hnd.1 (habs ▸ List.mem_map_of_mem Prod.fst hx))
      hnd.2
    rw [hih, List.append_assoc]
    rfl

/-- C9 amended — The remarks encoder parses the EXISTING string by splitting
on newlines (not on the comma-space with which it serializes); for existing
fields that are newline-separated with distinct well-formed keys, it merges
the updates exactly as claimed: an update with an existing key overwrites
that field in place, other existing fields are preserved, new keys are
appended, and the result is serialized as `Key: value` joined by comma-space.
For comma-space-separated existing fields (its own output format) the claimed
merge does NOT hold — see the counterexample. -/
theorem updateRemarks_newline_merge (fields updates : List (Str × Str))
    (h : ∀ f ∈ fields, GoodKey f.1 ∧ GoodVal f.2)
    (hnd : (fields.map Prod.fst).Nodup) :
    updateRemarksFields (joinSep ['\n'] (fields.map renderField)) updates =
      joinSep (", ").data
        ((updates.foldl (fun m kv => mapSet m kv.1 kv.2) fields).map renderField) := by
  rw [updateRemarksFields]
  rw [split_newline_render fields h]
  rw [foldl_parse_render_acc fields [] h (by simp) hnd]
  rfl

/-- C9 counterexample — feeding the codec its own output format back in:
existing remarks `"Name: Bob, Phone: 555"` (comma-space separated, as the
encoder itself serializes) with update `{Name: "Al"}` produces `"Name: Al"`,
dropping the Phone field entirely instead of preserving it. -/
theorem updateRemarks_drops_comma_field :
    updateRemarksFields ("Name: Bob, Phone: 555").data [(("Name").data, ("Al").data)] =
        ("Name: Al").data ∧
      ("Name: Al").data ≠ ("Name: Al, Phone: 555").data := by decide

def fieldsC9 : List (Str × Str) := [(("Name").data, ("Bob").data)]

def updatesC9 : List (Str × Str) := [(("Phone").data, ("555").data)]

theorem updateRemarks_newline_merge_witness :
    ((∀ f ∈ fieldsC9, GoodKey f.1 ∧ GoodVal f.2) ∧ (fieldsC9.map Prod.fst).Nodup ∧
        joinSep ['\n'] (fieldsC9.map renderField) = ("Name: Bob").data ∧
        joinSep (", ").data
          ((updatesC9.foldl (fun m kv => mapSet m kv.1 kv.2) fieldsC9).map renderField) =
          ("Name: Bob, Phone: 555").data) ∧
      updateRemarksFields (joinSep ['\n'] (fieldsC9.map renderField)) updatesC9 =
        joinSep (", ").data
          ((updatesC9.foldl (fun m kv => mapSet m kv.1 kv.2) fieldsC9).map renderField) :=
  ⟨⟨by decide, by decide, by decide, by decide⟩,
    updateRemarks_newline_merge fieldsC9 updatesC9 (by decide) (by decide)⟩

/-! ## Witness data for the round trip (claim C5) -/

def pC5 : Part := { id := ("P1").data, name := ("P1name").data, unitCost := 5, quantity := 7 }

def rC5 : Report :=
  { id := ("R1").data, technicianId := ("T1").data,
    summary := ("P1name x3").data, totalMoney := 15 }

def dbC5 : DB :=
  { parts := [pC5], stockLogs := [], technicians := [], bookings := [],
    bookingParts := [], reports := [rC5] }

def pC5a : Part := { id := ("P1").data, name := ("P1name").data, unitCost := 5, quantity := 5 }

def rC5a : Report :=
  { id := ("R1").data, technicianId := ("T1").data,
    summary := ("P1name x5").data, totalMoney := 25 }

def dbC5a : DB :=
  { parts := [pC5a], stockLogs := [], technicians := [], bookings := [],
    bookingParts := [], reports := [rC5a] }

def itemsC5a : List UsedItem := [{ id := ("P1").data, quantity := 3 }]

def itemsC5b : List UsedItem := [{ id := ("P1").data, quantity := 5 }]

theorem report_edit_roundtrip_witness :
    (dbC5.reports.find? (fun x => x.id == ("R1").data) = some rC5 ∧
        rC5.technicianId = ("T1").data ∧
        rC5.summary = sliceDrop2 (fragsStr (entriesOf dbC5.parts itemsC5a)) ∧
        (∀ it ∈ itemsC5a ++ itemsC5b, ResolvesNicely dbC5 it) ∧
        editReport dbC5 ("R1").data ("T1").data itemsC5b = .ok (dbC5a, rC5a) ∧
        editReport dbC5a ("R1").data ("T1").data itemsC5a = .ok (dbC5, rC5)) ∧
      dbC5.parts = dbC5.parts :=
  ⟨⟨by decide, by decide, by decide, by decide, by decide, by decide⟩,
    report_edit_roundtrip dbC5 dbC5a dbC5 (("R1").data) (("T1").data) itemsC5a itemsC5b
      rC5 rC5a rC5 (by decide) (by decide) (by decide) (by decide) (by decide) (by decide)⟩

end Svc
